import Mathlib

/-!
Verification of the dictionary-matching core of `src/app.py` (class
`BiomarkerFinder`).  Texts and terms are modelled as `List Char`; the
dataset is a list of `Row`s (pandas rows with the columns the code reads).
Python character primitives (`str.lower`, `str.isalnum`, `str.strip`) are
modelled on the ASCII range, plus the code point U+0130 whose lowercase
form has length 2, which witnesses Python's length-changing case folding.
Python's stable `list.sort` is modelled by a stable insertion sort: a
stable sort's output is determined by the key function and the input
order, so any stable sort is a faithful model.
-/

/-- Characters removed by Python's `str.strip()` (ASCII whitespace). -/
def pyIsSpace (c : Char) : Bool :=
  c = ' ' || c = '\t' || c = '\n' || c = '\r' || c = '\x0b' || c = '\x0c'

/-- Python `str.strip()`. -/
def pyStrip (s : List Char) : List Char :=
  ((s.dropWhile pyIsSpace).reverse.dropWhile pyIsSpace).reverse

/-- Python `str.split(',')`: splits at every comma, keeping empty pieces. -/
def splitComma : List Char → List (List Char)
  | [] => [[]]
  | c :: cs =>
    if c = ',' then [] :: splitComma cs
    else
      match splitComma cs with
      | [] => [[c]]
      | p :: ps => (c :: p) :: ps

/-- Python `str.lower`, character by character.  On ASCII it maps one
character to one character; U+0130 lowers to the two-character sequence
`"i̇"`, Python's one code point whose lowercase form is longer. -/
def pyLowerChar (c : Char) : List Char :=
  if c = 'İ' then ['i', '̇'] else [c.toLower]

/-- Python `str.lower` on a whole string. -/
def lowerStr (s : List Char) : List Char := s.flatMap pyLowerChar

/-- Python `str.isalnum` on one character (ASCII model). -/
def pyIsAlnum (c : Char) : Bool := c.isAlphanum

/-- The fixed stop-word set of `BiomarkerFinder.__init__` (source lines 21-25). -/
def stopWords : List (List Char) :=
  ["a", "an", "and", "are", "as", "at", "be", "by", "for", "from", "has",
   "he", "in", "is", "it", "its", "of", "on", "that", "the", "to", "was",
   "were", "will", "with", "his"].map String.data

/-- `BiomarkerFinder._is_valid_term` (source lines 88-90):
`len(term) >= 2 and term.lower() not in self.stop_words`. -/
def isValidTerm (term : List Char) : Bool :=
  decide (2 ≤ term.length) && !(stopWords.contains (lowerStr term))

/-- A dataset row with the columns the code reads; `none` models NaN. -/
structure Row where
  id : Option Nat
  name : Option (List Char)
  synonyms : Option (List Char)
  type_ : Option (List Char)
  deriving DecidableEq

/-- A key of the automaton with its stored value
`(concept_id, original_cased_term)` (source line 82). -/
structure TermEntry where
  key : List Char
  cid : Nat
  surface : List Char
  deriving DecidableEq

/-- One tuple of `all_matches` (source line 101): offsets plus the payload. -/
structure RawMatch where
  start : Nat
  endIdx : Nat
  cid : Nat
  mention : List Char
  deriving DecidableEq

/-- One dict of the `results` list (source lines 126-131). -/
structure MentionResult where
  mentionedTerm : List Char
  linkedBiomarker : Option (List Char)
  id : Nat
  type_ : Option (List Char)
  deriving DecidableEq

/-- `dropna(subset=['ID', 'Biomarker Name'])` (source line 31). -/
def validRows (rows : List Row) : List Row :=
  rows.filter (fun r => r.id.isSome && r.name.isSome)

/-- `terms_to_process` of one row: the name plus the comma-split synonym
field when present (source lines 66-69). -/
def rowTerms (r : Row) : List (List Char) :=
  (r.name.getD []) ::
    (match r.synonyms with
     | none => []
     | some s => splitComma s)

/-- The body of the inner loop of `_build_automaton` (source lines 71-78):
strip, validate, and insert into `final_terms_map` with the first writer
for a lowercase key winning. -/
def addTerm (cid : Nat) (tbl : List TermEntry) (t : List Char) : List TermEntry :=
  if isValidTerm (pyStrip t) then
    if tbl.any (fun ent => ent.key == lowerStr (pyStrip t)) then tbl
    else tbl ++ [⟨lowerStr (pyStrip t), cid, pyStrip t⟩]
  else tbl

/-- The inner loop of `_build_automaton` over one row's candidate terms. -/
def addTerms (table : List TermEntry) (cid : Nat) (terms : List (List Char)) :
    List TermEntry :=
  terms.foldl (addTerm cid) table

/-- The outer loop body of `_build_automaton` (source lines 62-78). -/
def addRow (tbl : List TermEntry) (r : Row) : List TermEntry :=
  addTerms tbl (r.id.getD 0) (rowTerms r)

/-- `final_terms_map` built by iterating the whole (dropna'd) dataframe in
order (source line 62), as an insertion-ordered entry list. -/
def buildTable (rows : List Row) : List TermEntry :=
  (validRows rows).foldl addRow []

/-- `_build_automaton(min_len)` (source line 49): the parameter is received
but never read by the body; the automaton's keys are exactly the
`final_terms_map` keys. -/
def buildAutomaton (rows : List Row) (min_len : Nat) : List TermEntry :=
  buildTable rows

/-- `drop_duplicates(subset=['ID'], keep='first')` (source line 32). -/
def dropDupIds : List Row → List (Option Nat) → List Row
  | [], _ => []
  | r :: rs, seen =>
    if seen.contains r.id then dropDupIds rs seen
    else r :: dropDupIds rs (r.id :: seen)

/-- The `biomarker_db` dict of source line 32: concept id → first dropna'd
row with that id. -/
def biomarkerDB (rows : List Row) : List (Nat × Row) :=
  (dropDupIds (validRows rows) []).map (fun r => (r.id.getD 0, r))

/-- `self.biomarker_db.get(concept_id, {})` (source line 125), `none`
standing for the `{}` default. -/
def dbGet (rows : List Row) (cid : Nat) : Option Row :=
  ((biomarkerDB rows).find? (fun p => p.1 == cid)).map Prod.snd

/-- `self.automaton.iter(text.lower())` plus source lines 98-101: every
occurrence of every key in the lowercased text, reported by its end offset
there; `start_index` is recovered with the length of the stored surface
form, and the mention is re-sliced from the original text at those
offsets.  Generation order is canonical (end offset, then table order);
the subsequent sort makes the pipeline insensitive to it. -/
def rawMatches (table : List TermEntry) (text : List Char) : List RawMatch :=
  let L := lowerStr text
  (List.range L.length).flatMap (fun e =>
    table.filterMap (fun ent =>
      if ent.key.length ≤ e + 1 ∧
          (L.drop (e + 1 - ent.key.length)).take ent.key.length = ent.key then
        some ⟨e + 1 - ent.surface.length, e, ent.cid,
          (text.drop (e + 1 - ent.surface.length)).take
            (e + 1 - (e + 1 - ent.surface.length))⟩
      else none))

/-- The Bool computed by the whole-word test of source lines 105-107 when
both boundary reads are in range.  An index outside the original text
(reachable only when case folding lengthened the text) reads as a
non-alphanumeric boundary here; `checkBound` below wraps this with the
IndexError Python raises on such a read, and the two agree wherever no
read is out of range. -/
def boundaryOK (text : List Char) (m : RawMatch) : Bool :=
  (m.start == 0 || !(pyIsAlnum (text.getD (m.start - 1) ' '))) &&
  (m.endIdx + 1 == text.length || !(pyIsAlnum (text.getD (m.endIdx + 1) ' ')))

/-- `whole_word_matches` (source lines 103-108). -/
def survivors (table : List TermEntry) (text : List Char) : List RawMatch :=
  (rawMatches table text).filter (boundaryOK text)

/-- The sort key `(x[0], -(x[1]-x[0]))` of source line 113 as a total
comparison. -/
def matchLE (a b : RawMatch) : Bool :=
  decide (a.start < b.start) ||
    (a.start == b.start && decide (b.endIdx - b.start ≤ a.endIdx - a.start))

/-- Stable insertion used to model Python's stable `list.sort`. -/
def insertMatch (a : RawMatch) : List RawMatch → List RawMatch
  | [] => [a]
  | b :: bs => if matchLE a b then a :: b :: bs else b :: insertMatch a bs

/-- `whole_word_matches.sort(...)` (source line 113): a stable sort by
`matchLE`. -/
def sortMatches (l : List RawMatch) : List RawMatch :=
  l.foldr insertMatch []

/-- The greedy selection loop of source lines 115-121, carrying `last_end`
(initially `-1`). -/
def greedySelect : List RawMatch → Int → List RawMatch
  | [], _ => []
  | m :: ms, last =>
    if last < (m.start : Int) then m :: greedySelect ms (m.endIdx : Int)
    else greedySelect ms last

/-- `longest_matches` (source lines 113-121). -/
def selectedSpans (table : List TermEntry) (text : List Char) : List RawMatch :=
  greedySelect (sortMatches (survivors table text)) (-1)

/-- One `results` dict (source lines 124-131). -/
def resolveOne (rows : List Row) (m : RawMatch) : MentionResult :=
  match dbGet rows m.cid with
  | some r => ⟨m.mention, r.name, m.cid, r.type_⟩
  | none => ⟨m.mention, none, m.cid, none⟩

/-- `BiomarkerFinder.find_matches` (source lines 92-132), for a finder
built with `BiomarkerFinder(rows, min_len)`.  The first guard mirrors
`if not self.automaton or self.biomarker_df.empty` (an automaton with no
keys is falsy), the second the early return of source lines 110-111. -/
def findMatches (rows : List Row) (min_len : Nat) (text : List Char) :
    List MentionResult :=
  let table := buildAutomaton rows min_len
  if table.isEmpty || (validRows rows).isEmpty then []
  else if (survivors table text).isEmpty then []
  else (selectedSpans table text).map (resolveOne rows)

/-- The character before offset `s` in the text, `none` when absent. -/
def charBefore (text : List Char) (s : Nat) : Option Char :=
  if s = 0 then none else text[s - 1]?

/-- The character after offset `e` in the text, `none` when absent. -/
def charAfter (text : List Char) (e : Nat) : Option Char :=
  text[e + 1]?

/-- "absent or not alphanumeric". -/
def noAlnum : Option Char → Bool
  | none => true
  | some c => !(pyIsAlnum c)

/-- The spec's whole-word condition for a span `[s, e]`: the character
immediately before `s` is absent or not alphanumeric, and the character
immediately after `e` is absent or not alphanumeric. -/
abbrev wordBoundary (text : List Char) (s e : Nat) : Prop :=
  noAlnum (charBefore text s) = true ∧ noAlnum (charAfter text e) = true

/-- Source lines 105-106 with Python's index semantics: `none` models the
IndexError raised when `text[start - 1]` (line 105, only read when
`start != 0`) or `text[end + 1]` (line 106, only read when
`end + 1 != len(text)`) lies outside the text — reachable only when case
folding lengthened the text; otherwise the whole-word Bool the code
computes from in-range reads. -/
def checkBound (text : List Char) (m : RawMatch) : Option Bool :=
  if m.start ≠ 0 ∧ text.length ≤ m.start - 1 then none
  else if m.endIdx + 1 ≠ text.length ∧ text.length ≤ m.endIdx then none
  else some (boundaryOK text m)

/-- The filter loop of source lines 103-108 over the raw matches in scan
order, with `none` propagating the IndexError of the first match whose
boundary read falls outside the text. -/
def filterBound (text : List Char) : List RawMatch → Option (List RawMatch)
  | [] => some []
  | m :: ms =>
    match checkBound text m with
    | none => none
    | some b =>
      (filterBound text ms).map (fun rest => if b then m :: rest else rest)

theorem matchLE_total (a b : RawMatch) : matchLE a b = true ∨ matchLE b a = true := by
  simp only [matchLE, Bool.or_eq_true, Bool.and_eq_true, decide_eq_true_eq, beq_iff_eq]
  omega

theorem matchLE_trans (a b c : RawMatch) (h1 : matchLE a b = true)
    (h2 : matchLE b c = true) : matchLE a c = true := by
  simp only [matchLE, Bool.or_eq_true, Bool.and_eq_true, decide_eq_true_eq,
    beq_iff_eq] at h1 h2 ⊢
  omega

theorem matchLE_start_le (a b : RawMatch) (h : matchLE a b = true) :
    a.start ≤ b.start := by
  simp only [matchLE, Bool.or_eq_true, Bool.and_eq_true, decide_eq_true_eq,
    beq_iff_eq] at h
  omega

theorem insertMatch_perm (a : RawMatch) (l : List RawMatch) :
    (insertMatch a l).Perm (a :: l) := by
  induction l with
  | nil => exact List.Perm.refl _
  | cons b bs ih =>
    by_cases h : matchLE a b = true
    · simp [insertMatch, h]
    · simp only [insertMatch, h, if_neg, Bool.false_eq_true, not_false_eq_true]
      exact (ih.cons b).trans (List.Perm.swap a b bs)

theorem sortMatches_perm (l : List RawMatch) : (sortMatches l).Perm l := by
  induction l with
  | nil => exact List.Perm.refl _
  | cons a l ih => exact (insertMatch_perm a (sortMatches l)).trans (ih.cons a)

theorem mem_sortMatches (l : List RawMatch) (x : RawMatch) :
    x ∈ sortMatches l ↔ x ∈ l :=
  (sortMatches_perm l).mem_iff

theorem insertMatch_pairwise (a : RawMatch) (l : List RawMatch)
    (h : l.Pairwise (fun x y => matchLE x y = true)) :
    (insertMatch a l).Pairwise (fun x y => matchLE x y = true) := by
  induction l with
  | nil => simp [insertMatch]
  | cons b bs ih =>
    rcases List.pairwise_cons.mp h with ⟨hb, hbs⟩
    by_cases hab : matchLE a b = true
    · simp only [insertMatch, hab, if_pos]
      refine List.pairwise_cons.mpr ⟨?_, h⟩
      intro x hx
      rcases List.mem_cons.mp hx with rfl | hx2
      · exact hab
      · exact matchLE_trans a b x hab (hb x hx2)
    · have hba : matchLE b a = true := (matchLE_total a b).resolve_left hab
      simp only [insertMatch, hab, if_neg, Bool.false_eq_true, not_false_eq_true]
      refine List.pairwise_cons.mpr ⟨?_, ih hbs⟩
      intro x hx
      have hx2 : x ∈ a :: bs := (insertMatch_perm a bs).mem_iff.mp hx
      rcases List.mem_cons.mp hx2 with rfl | hx3
      · exact hba
      · exact hb x hx3

theorem sortMatches_pairwise (l : List RawMatch) :
    (sortMatches l).Pairwise (fun x y => matchLE x y = true) := by
  induction l with
  | nil => simp [sortMatches]
  | cons a l ih => exact insertMatch_pairwise a (sortMatches l) ih

theorem greedySelect_subset (ms : List RawMatch) (last : Int) (m : RawMatch)
    (h : m ∈ greedySelect ms last) : m ∈ ms := by
  induction ms generalizing last with
  | nil => simp [greedySelect] at h
  | cons a rest ih =>
    by_cases hc : last < (a.start : Int)
    · simp only [greedySelect, if_pos hc] at h
      rcases List.mem_cons.mp h with rfl | h2
      · exact List.mem_cons_self _ _
      · exact List.mem_cons_of_mem _ (ih _ h2)
    · simp only [greedySelect, if_neg hc] at h
      exact List.mem_cons_of_mem _ (ih _ h)

theorem greedySelect_start_gt (ms : List RawMatch) (last : Int)
    (hse : ∀ x ∈ ms, x.start ≤ x.endIdx) (m : RawMatch)
    (h : m ∈ greedySelect ms last) : last < (m.start : Int) := by
  induction ms generalizing last with
  | nil => simp [greedySelect] at h
  | cons a rest ih =>
    have hse' : ∀ x ∈ rest, x.start ≤ x.endIdx :=
      fun x hx => hse x (List.mem_cons_of_mem _ hx)
    by_cases hc : last < (a.start : Int)
    · simp only [greedySelect, if_pos hc] at h
      rcases List.mem_cons.mp h with rfl | h2
      · exact hc
      · have h3 := ih _ hse' h2
        have h4 := hse a (List.mem_cons_self _ _)
        omega
    · simp only [greedySelect, if_neg hc] at h
      exact ih _ hse' h

theorem greedySelect_pairwise (ms : List RawMatch) (last : Int)
    (hse : ∀ x ∈ ms, x.start ≤ x.endIdx) :
    (greedySelect ms last).Pairwise (fun a b => a.endIdx < b.start) := by
  induction ms generalizing last with
  | nil => simp [greedySelect]
  | cons a rest ih =>
    have hse' : ∀ x ∈ rest, x.start ≤ x.endIdx :=
      fun x hx => hse x (List.mem_cons_of_mem _ hx)
    by_cases hc : last < (a.start : Int)
    · simp only [greedySelect, if_pos hc]
      refine List.pairwise_cons.mpr ⟨?_, ih _ hse'⟩
      intro b hb
      have := greedySelect_start_gt rest (a.endIdx : Int) hse' b hb
      omega
    · simp only [greedySelect, if_neg hc]
      exact ih _ hse'

theorem greedySelect_complete (ms : List RawMatch) (last : Int) (m : RawMatch)
    (hpair : ms.Pairwise (fun a b => a.start ≤ b.start)) (hm : m ∈ ms)
    (hgt : last < (m.start : Int)) (hnot : m ∉ greedySelect ms last) :
    ∃ w, w ∈ greedySelect ms last ∧ w.start ≤ m.start ∧ m.start ≤ w.endIdx := by
  induction ms generalizing last with
  | nil => simp at hm
  | cons a rest ih =>
    rcases List.pairwise_cons.mp hpair with ⟨ha, hrest⟩
    by_cases hc : last < (a.start : Int)
    · simp only [greedySelect, if_pos hc] at hnot ⊢
      have hne : m ≠ a := by
        intro he
        exact hnot (he ▸ List.mem_cons_self _ _)
      have hm' : m ∈ rest := by
        rcases List.mem_cons.mp hm with rfl | h2
        · exact absurd rfl hne
        · exact h2
      have hnot2 : m ∉ greedySelect rest (a.endIdx : Int) :=
        fun h2 => hnot (List.mem_cons_of_mem _ h2)
      by_cases hgt2 : (a.endIdx : Int) < (m.start : Int)
      · obtain ⟨w, hw, h1, h2⟩ := ih _ hrest hm' hgt2 hnot2
        exact ⟨w, List.mem_cons_of_mem _ hw, h1, h2⟩
      · exact ⟨a, List.mem_cons_self _ _, ha m hm', by omega⟩
    · simp only [greedySelect, if_neg hc] at hnot ⊢
      have hm' : m ∈ rest := by
        rcases List.mem_cons.mp hm with rfl | h2
        · exact absurd hgt hc
        · exact h2
      exact ih _ hrest hm' hgt hnot

theorem isValidTerm_length (t : List Char) (h : isValidTerm t = true) :
    2 ≤ t.length := by
  simp only [isValidTerm, Bool.and_eq_true, decide_eq_true_eq] at h
  exact h.1

theorem isValidTerm_not_stop (t : List Char) (h : isValidTerm t = true) :
    stopWords.contains (lowerStr t) = false := by
  simp only [isValidTerm, Bool.and_eq_true, Bool.not_eq_true'] at h
  exact h.2

theorem pyLowerChar_length_pos (c : Char) : 1 ≤ (pyLowerChar c).length := by
  unfold pyLowerChar
  split <;> simp

theorem lowerStr_nil : lowerStr [] = [] := rfl

theorem lowerStr_cons (c : Char) (s : List Char) :
    lowerStr (c :: s) = pyLowerChar c ++ lowerStr s := by
  simp [lowerStr]

theorem lowerStr_append (s t : List Char) :
    lowerStr (s ++ t) = lowerStr s ++ lowerStr t := by
  simp [lowerStr]

theorem lowerStr_length_ge (s : List Char) : s.length ≤ (lowerStr s).length := by
  induction s with
  | nil => simp [lowerStr]
  | cons c cs ih =>
    rw [lowerStr_cons, List.length_append, List.length_cons]
    have := pyLowerChar_length_pos c
    omega

theorem lowerStr_length_eq (s : List Char)
    (h : ∀ c ∈ s, (pyLowerChar c).length = 1) :
    (lowerStr s).length = s.length := by
  induction s with
  | nil => simp [lowerStr]
  | cons c cs ih =>
    rw [lowerStr_cons, List.length_append, List.length_cons]
    rw [h c (List.mem_cons_self _ _), ih fun x hx => h x (List.mem_cons_of_mem _ hx)]
    omega

/-- The invariant established for every entry of `final_terms_map`:
the key is the lowercased surface form, and the surface form passed
`_is_valid_term`. -/
def entOK (ent : TermEntry) : Prop :=
  ent.key = lowerStr ent.surface ∧ isValidTerm ent.surface = true

theorem mem_addTerm (cid : Nat) (tbl : List TermEntry) (t : List Char)
    (ent : TermEntry) (h : ent ∈ addTerm cid tbl t) :
    ent ∈ tbl ∨
      (ent = ⟨lowerStr (pyStrip t), cid, pyStrip t⟩ ∧ isValidTerm (pyStrip t) = true) := by
  unfold addTerm at h
  by_cases hv : isValidTerm (pyStrip t) = true
  · rw [if_pos hv] at h
    by_cases ha : tbl.any (fun e => e.key == lowerStr (pyStrip t)) = true
    · rw [if_pos ha] at h
      exact Or.inl h
    · rw [if_neg ha] at h
      rcases List.mem_append.mp h with h2 | h2
      · exact Or.inl h2
      · exact Or.inr ⟨List.mem_singleton.mp h2, hv⟩
  · rw [if_neg hv] at h
    exact Or.inl h

theorem addTerm_mono (cid : Nat) (tbl : List TermEntry) (t : List Char)
    (ent : TermEntry) (h : ent ∈ tbl) : ent ∈ addTerm cid tbl t := by
  unfold addTerm
  split
  · split
    · exact h
    · exact List.mem_append_left _ h
  · exact h

theorem addTerms_mono (cid : Nat) (terms : List (List Char))
    (tbl : List TermEntry) (ent : TermEntry) (h : ent ∈ tbl) :
    ent ∈ addTerms tbl cid terms := by
  induction terms generalizing tbl with
  | nil => exact h
  | cons t ts ih => exact ih _ (addTerm_mono cid tbl t ent h)

theorem mem_addTerms (cid : Nat) (terms : List (List Char))
    (tbl : List TermEntry) (ent : TermEntry) (h : ent ∈ addTerms tbl cid terms) :
    ent ∈ tbl ∨ (entOK ent ∧ ent.cid = cid) := by
  induction terms generalizing tbl with
  | nil => exact Or.inl h
  | cons t ts ih =>
    have h' : ent ∈ addTerms (addTerm cid tbl t) cid ts := h
    rcases ih _ h' with h2 | h2
    · rcases mem_addTerm cid tbl t ent h2 with h3 | h3
      · exact Or.inl h3
      · exact Or.inr ⟨⟨by rw [h3.1], by rw [h3.1]; exact h3.2⟩, by rw [h3.1]⟩
    · exact Or.inr h2

theorem foldl_addRow_mono (rs : List Row) (tbl : List TermEntry)
    (ent : TermEntry) (h : ent ∈ tbl) : ent ∈ rs.foldl addRow tbl := by
  induction rs generalizing tbl with
  | nil => exact h
  | cons r rs ih => exact ih _ (addTerms_mono _ _ _ _ h)

theorem mem_foldl_addRow (rs : List Row) (tbl : List TermEntry)
    (ent : TermEntry) (h : ent ∈ rs.foldl addRow tbl) :
    ent ∈ tbl ∨ entOK ent := by
  induction rs generalizing tbl with
  | nil => exact Or.inl h
  | cons r rs ih =>
    rcases ih _ h with h2 | h2
    · rcases mem_addTerms _ _ _ _ h2 with h3 | h3
      · exact Or.inl h3
      · exact Or.inr h3.1
    · exact Or.inr h2

theorem mem_buildTable_entOK (rows : List Row) (ent : TermEntry)
    (h : ent ∈ buildTable rows) : entOK ent := by
  rcases mem_foldl_addRow _ _ _ h with h2 | h2
  · simp at h2
  · exact h2

theorem buildTable_surface_len (rows : List Row) (ent : TermEntry)
    (h : ent ∈ buildTable rows) : 2 ≤ ent.surface.length :=
  isValidTerm_length _ (mem_buildTable_entOK rows ent h).2

theorem buildTable_key_len (rows : List Row) (ent : TermEntry)
    (h : ent ∈ buildTable rows) : ent.surface.length ≤ ent.key.length := by
  rw [(mem_buildTable_entOK rows ent h).1]
  exact lowerStr_length_ge _

theorem mem_rawMatches (table : List TermEntry) (text : List Char) (m : RawMatch) :
    m ∈ rawMatches table text ↔
      ∃ ent ∈ table, ∃ e, e < (lowerStr text).length ∧ ent.key.length ≤ e + 1 ∧
        ((lowerStr text).drop (e + 1 - ent.key.length)).take ent.key.length = ent.key ∧
        m = ⟨e + 1 - ent.surface.length, e, ent.cid,
          (text.drop (e + 1 - ent.surface.length)).take
            (e + 1 - (e + 1 - ent.surface.length))⟩ := by
  simp only [rawMatches, List.mem_flatMap, List.mem_range, List.mem_filterMap]
  constructor
  · rintro ⟨e, he, ent, hent, hif⟩
    by_cases hc : ent.key.length ≤ e + 1 ∧
        ((lowerStr text).drop (e + 1 - ent.key.length)).take ent.key.length = ent.key
    · rw [if_pos hc] at hif
      exact ⟨ent, hent, e, he, hc.1, hc.2, (Option.some.inj hif).symm⟩
    · rw [if_neg hc] at hif
      exact absurd hif (by simp)
  · rintro ⟨ent, hent, e, he, h1, h2, rfl⟩
    exact ⟨e, he, ent, hent, by rw [if_pos ⟨h1, h2⟩]⟩

theorem rawMatches_start_le (rows : List Row) (text : List Char) (m : RawMatch)
    (h : m ∈ rawMatches (buildTable rows) text) : m.start ≤ m.endIdx := by
  rcases (mem_rawMatches _ _ _).mp h with ⟨ent, hent, e, he, h1, h2, rfl⟩
  have h3 := buildTable_surface_len rows ent hent
  show e + 1 - ent.surface.length ≤ e
  omega

theorem mem_survivors (table : List TermEntry) (text : List Char) (m : RawMatch) :
    m ∈ survivors table text ↔
      m ∈ rawMatches table text ∧ boundaryOK text m = true :=
  List.mem_filter

theorem noAlnum_before (text : List Char) (s : Nat) :
    (s == 0 || !(pyIsAlnum (text.getD (s - 1) ' '))) = noAlnum (charBefore text s) := by
  by_cases h0 : s = 0
  · subst h0
    simp [charBefore, noAlnum]
  · have hb : (s == 0) = false := by simp [h0]
    rw [hb, Bool.false_or, charBefore, if_neg h0, List.getD_eq_getElem?_getD]
    cases hc : text[s - 1]? with
    | none => simp only [Option.getD_none, noAlnum]; decide
    | some c => simp [noAlnum]

theorem noAlnum_after (text : List Char) (e : Nat) :
    ((e + 1 == text.length) || !(pyIsAlnum (text.getD (e + 1) ' '))) =
      noAlnum (charAfter text e) := by
  by_cases heq : e + 1 = text.length
  · have hb : (e + 1 == text.length) = true := by simp [heq]
    rw [hb, Bool.true_or, charAfter, List.getElem?_eq_none (by omega)]
    rfl
  · have hb : (e + 1 == text.length) = false := by simp [heq]
    rw [hb, Bool.false_or, charAfter, List.getD_eq_getElem?_getD]
    cases hc : text[e + 1]? with
    | none => simp only [Option.getD_none, noAlnum]; decide
    | some c => simp [noAlnum]

theorem boundaryOK_iff (text : List Char) (m : RawMatch) :
    boundaryOK text m = true ↔ wordBoundary text m.start m.endIdx := by
  unfold boundaryOK
  rw [noAlnum_before, noAlnum_after]
  simp only [Bool.and_eq_true]

theorem checkBound_some_iff (text : List Char) (m : RawMatch) (b : Bool)
    (hb : checkBound text m = some b) :
    b = true ↔ wordBoundary text m.start m.endIdx := by
  unfold checkBound at hb
  by_cases hq1 : m.start ≠ 0 ∧ text.length ≤ m.start - 1
  · rw [if_pos hq1] at hb
    exact absurd hb (by simp)
  · rw [if_neg hq1] at hb
    by_cases hq2 : m.endIdx + 1 ≠ text.length ∧ text.length ≤ m.endIdx
    · rw [if_pos hq2] at hb
      exact absurd hb (by simp)
    · rw [if_neg hq2] at hb
      rw [← Option.some.inj hb]
      exact boundaryOK_iff text m

theorem filterBound_eq_filter (text : List Char) (l : List RawMatch)
    (h : ∀ m ∈ l, checkBound text m = some (boundaryOK text m)) :
    filterBound text l = some (l.filter (boundaryOK text)) := by
  induction l with
  | nil => rfl
  | cons m ms ih =>
    have hm := h m (List.mem_cons_self _ _)
    simp only [filterBound, hm]
    rw [ih fun x hx => h x (List.mem_cons_of_mem _ hx), List.filter_cons]
    cases hbb : boundaryOK text m with
    | true => simp
    | false => simp

theorem checkBound_some_of_len_eq (rows : List Row) (text : List Char)
    (htext : ∀ c ∈ text, (pyLowerChar c).length = 1) (m : RawMatch)
    (hm : m ∈ rawMatches (buildTable rows) text) :
    checkBound text m = some (boundaryOK text m) := by
  have hLlen := lowerStr_length_eq text htext
  rcases (mem_rawMatches _ _ _).mp hm with ⟨ent, hent, e, he, h1, h2, rfl⟩
  have hsurf := buildTable_surface_len rows ent hent
  have he2 : e < text.length := by omega
  unfold checkBound
  rw [if_neg ?c1, if_neg ?c2]
  case c1 =>
    show ¬(e + 1 - ent.surface.length ≠ 0 ∧
      text.length ≤ e + 1 - ent.surface.length - 1)
    omega
  case c2 =>
    show ¬(e + 1 ≠ text.length ∧ text.length ≤ e)
    omega

theorem find?_congr_on {α : Type} (p q : α → Bool) (l : List α)
    (h : ∀ x ∈ l, p x = q x) : l.find? p = l.find? q := by
  induction l with
  | nil => rfl
  | cons a l ih =>
    have ha := h a (List.mem_cons_self _ _)
    by_cases hp : p a = true
    · rw [List.find?_cons_of_pos l hp, List.find?_cons_of_pos l (ha ▸ hp)]
    · rw [List.find?_cons_of_neg l hp, List.find?_cons_of_neg l (by rw [← ha]; exact hp)]
      exact ih fun x hx => h x (List.mem_cons_of_mem _ hx)

theorem find?_append_of_none {α : Type} (p : α → Bool) (l1 l2 : List α)
    (h : ∀ x ∈ l1, p x = false) : (l1 ++ l2).find? p = l2.find? p := by
  induction l1 with
  | nil => rfl
  | cons a l ih =>
    rw [List.cons_append,
      List.find?_cons_of_neg _ (by rw [h a (List.mem_cons_self _ _)]; simp)]
    exact ih fun x hx => h x (List.mem_cons_of_mem _ hx)

theorem mem_dropDupIds (rs : List Row) (seen : List (Option Nat)) (x : Row)
    (h : x ∈ dropDupIds rs seen) : x ∈ rs := by
  induction rs generalizing seen with
  | nil => exact absurd h (by simp [dropDupIds])
  | cons r rs ih =>
    unfold dropDupIds at h
    by_cases hc : seen.contains r.id = true
    · rw [if_pos hc] at h
      exact List.mem_cons_of_mem _ (ih _ h)
    · rw [if_neg hc] at h
      rcases List.mem_cons.mp h with rfl | h2
      · exact List.mem_cons_self _ _
      · exact List.mem_cons_of_mem _ (ih _ h2)

theorem dropDupIds_find (cid : Nat) (rs : List Row) (seen : List (Option Nat))
    (hseen : seen.contains (some cid) = false) :
    (dropDupIds rs seen).find? (fun r => r.id == some cid) =
      rs.find? (fun r => r.id == some cid) := by
  induction rs generalizing seen with
  | nil => rfl
  | cons r rs ih =>
    unfold dropDupIds
    by_cases hc : seen.contains r.id = true
    · rw [if_pos hc]
      have hne : (r.id == some cid) = false := by
        by_contra hne2
        have : r.id = some cid := by
          cases hb : (r.id == some cid)
          · exact absurd hb hne2
          · exact beq_iff_eq.mp hb
        rw [this] at hc
        rw [hc] at hseen
        exact absurd hseen (by simp)
      rw [List.find?_cons_of_neg _ (by rw [hne]; simp)]
      exact ih seen hseen
    · rw [if_neg hc]
      by_cases heq : (r.id == some cid) = true
      · rw [@List.find?_cons_of_pos Row (fun r => r.id == some cid) r
            (dropDupIds rs (r.id :: seen)) heq,
          @List.find?_cons_of_pos Row (fun r => r.id == some cid) r rs heq]
      · rw [@List.find?_cons_of_neg Row (fun r => r.id == some cid) r
            (dropDupIds rs (r.id :: seen)) heq,
          @List.find?_cons_of_neg Row (fun r => r.id == some cid) r rs heq]
        apply ih
        have h1 : (some cid == r.id) = false := by
          cases hb : (some cid == r.id)
          · rfl
          · exact absurd (beq_iff_eq.mp hb).symm fun he =>
              heq (beq_iff_eq.mpr he)
        simp only [List.contains_cons, Bool.or_eq_false_iff]
        constructor
        · exact h1
        · exact hseen

theorem mem_validRows (rows : List Row) (r : Row) (h : r ∈ validRows rows) :
    r ∈ rows ∧ r.id.isSome = true ∧ r.name.isSome = true := by
  have h2 := List.mem_filter.mp h
  exact ⟨h2.1, (Bool.and_eq_true _ _).mp h2.2⟩

theorem validRows_append (xs ys : List Row) :
    validRows (xs ++ ys) = validRows xs ++ validRows ys :=
  List.filter_append _ _

theorem dbGet_eq_find_valid (rows : List Row) (cid : Nat) :
    dbGet rows cid = (validRows rows).find? (fun r => r.id == some cid) := by
  unfold dbGet biomarkerDB
  rw [List.find?_map]
  have hpt : ∀ x ∈ dropDupIds (validRows rows) [],
      ((fun p : Nat × Row => p.1 == cid) ∘ fun r : Row => (r.id.getD 0, r)) x =
        (fun r : Row => r.id == some cid) x := by
    intro x hx
    have hx2 := (mem_validRows rows x (mem_dropDupIds _ _ _ hx)).2.1
    rcases Option.isSome_iff_exists.mp hx2 with ⟨j, hj⟩
    show (x.id.getD 0 == cid) = (x.id == some cid)
    rw [hj]
    rfl
  rw [find?_congr_on _ _ _ hpt, dropDupIds_find cid _ [] (by simp)]
  cases hf : (validRows rows).find? (fun r => r.id == some cid) with
  | none => rfl
  | some r => rfl

theorem addTerms_key_covers (cid : Nat) (terms : List (List Char))
    (tbl : List TermEntry) (t : List Char) (ht : t ∈ terms)
    (hv : isValidTerm (pyStrip t) = true)
    (habs : ∀ ent ∈ tbl, ent.key ≠ lowerStr (pyStrip t)) :
    ∃ ent ∈ addTerms tbl cid terms,
      ent.key = lowerStr (pyStrip t) ∧ ent.cid = cid := by
  induction terms generalizing tbl with
  | nil => simp at ht
  | cons t' ts ih =>
    have hstep : addTerms tbl cid (t' :: ts) = addTerms (addTerm cid tbl t') cid ts := rfl
    rcases List.mem_cons.mp ht with rfl | hts
    · have hany : ¬ (tbl.any fun ent => ent.key == lowerStr (pyStrip t)) = true := by
        simp only [List.any_eq_true, beq_iff_eq]
        rintro ⟨ent, hent, hk⟩
        exact habs ent hent hk
      have hnew : addTerm cid tbl t = tbl ++ [⟨lowerStr (pyStrip t), cid, pyStrip t⟩] := by
        unfold addTerm
        rw [if_pos hv, if_neg hany]
      refine ⟨⟨lowerStr (pyStrip t), cid, pyStrip t⟩, ?_, rfl, rfl⟩
      rw [hstep, hnew]
      exact addTerms_mono cid ts _ _ (List.mem_append_right _ (by simp))
    · by_cases hex : ∀ ent ∈ addTerm cid tbl t', ent.key ≠ lowerStr (pyStrip t)
      · rw [hstep]
        exact ih (addTerm cid tbl t') hts hex
      · push_neg at hex
        obtain ⟨ent, hent, hkey⟩ := hex
        have hcid : ent.cid = cid := by
          rcases mem_addTerm cid tbl t' ent hent with h2 | h2
          · exact absurd hkey (habs ent h2)
          · rw [h2.1]
        refine ⟨ent, ?_, hkey, hcid⟩
        rw [hstep]
        exact addTerms_mono cid ts _ ent hent

theorem buildTable_append (xs ys : List Row) :
    buildTable (xs ++ ys) = (validRows ys).foldl addRow (buildTable xs) := by
  unfold buildTable
  rw [validRows_append, List.foldl_append]

theorem buildTable_validRows_ne (rows : List Row)
    (h : buildTable rows ≠ []) : validRows rows ≠ [] := by
  intro he
  apply h
  unfold buildTable
  rw [he]
  rfl

theorem lowerStr_take (s : List Char)
    (h : ∀ c ∈ s, (pyLowerChar c).length = 1) :
    ∀ n, lowerStr (s.take n) = (lowerStr s).take n := by
  induction s with
  | nil => intro n; simp [lowerStr]
  | cons c cs ih =>
    intro n
    cases n with
    | zero => simp [lowerStr]
    | succ n =>
      obtain ⟨d, hd⟩ := List.length_eq_one.mp (h c (List.mem_cons_self _ _))
      rw [List.take_succ_cons, lowerStr_cons, lowerStr_cons, hd,
        List.singleton_append, List.singleton_append, List.take_succ_cons,
        ih (fun x hx => h x (List.mem_cons_of_mem _ hx)) n]

theorem lowerStr_drop (s : List Char)
    (h : ∀ c ∈ s, (pyLowerChar c).length = 1) :
    ∀ n, lowerStr (s.drop n) = (lowerStr s).drop n := by
  induction s with
  | nil => intro n; simp [lowerStr]
  | cons c cs ih =>
    intro n
    cases n with
    | zero => rfl
    | succ n =>
      obtain ⟨d, hd⟩ := List.length_eq_one.mp (h c (List.mem_cons_self _ _))
      rw [List.drop_succ_cons, lowerStr_cons, hd, List.singleton_append,
        List.drop_succ_cons,
        ih (fun x hx => h x (List.mem_cons_of_mem _ hx)) n]

theorem lowerStr_slice (text : List Char)
    (h : ∀ c ∈ text, (pyLowerChar c).length = 1) (s n : Nat) :
    lowerStr ((text.drop s).take n) = ((lowerStr text).drop s).take n := by
  have hd : ∀ c ∈ text.drop s, (pyLowerChar c).length = 1 :=
    fun c hc => h c (List.mem_of_mem_drop hc)
  rw [lowerStr_take _ hd n, lowerStr_drop _ h s]

theorem findMatches_eq (rows : List Row) (min_len : Nat) (text : List Char)
    (h1 : buildTable rows ≠ []) (h2 : survivors (buildTable rows) text ≠ []) :
    findMatches rows min_len text =
      (selectedSpans (buildTable rows) text).map (resolveOne rows) := by
  have hv := buildTable_validRows_ne rows h1
  have c1 : ¬ ((buildTable rows).isEmpty || (validRows rows).isEmpty) = true := by
    simp only [Bool.or_eq_true, List.isEmpty_iff]
    rintro (hc | hc)
    · exact h1 hc
    · exact hv hc
  have c2 : ¬ (survivors (buildTable rows) text).isEmpty = true := by
    simp only [List.isEmpty_iff]
    exact h2
  simp only [findMatches, buildAutomaton]
  rw [if_neg c1, if_neg c2]

theorem findMatches_of_empty_table (rows : List Row) (min_len : Nat)
    (text : List Char) (h : buildTable rows = []) :
    findMatches rows min_len text = [] := by
  simp only [findMatches, buildAutomaton, h]
  rw [if_pos (by simp)]

theorem resolveOne_of_dbGet_none (rows : List Row) (m : RawMatch)
    (h : dbGet rows m.cid = none) :
    resolveOne rows m = ⟨m.mention, none, m.cid, none⟩ := by
  unfold resolveOne
  rw [h]

theorem resolveOne_mention (rows : List Row) (m : RawMatch) :
    (resolveOne rows m).mentionedTerm = m.mention := by
  unfold resolveOne
  cases dbGet rows m.cid with
  | none => rfl
  | some r => rfl

theorem sortMatches_survivors_wf (rows : List Row) (text : List Char) :
    ∀ x ∈ sortMatches (survivors (buildTable rows) text), x.start ≤ x.endIdx :=
  fun x hx =>
    rawMatches_start_le rows text x
      ((mem_survivors _ _ _).mp ((mem_sortMatches _ _).mp hx)).1

theorem selectedSpans_pairwise (rows : List Row) (text : List Char) :
    (selectedSpans (buildTable rows) text).Pairwise
      (fun a b => a.endIdx < b.start ∧ a.start < b.start) := by
  have hse := sortMatches_survivors_wf rows text
  have hp := greedySelect_pairwise (sortMatches (survivors (buildTable rows) text))
    (-1) hse
  refine List.Pairwise.imp_of_mem ?_ hp
  intro a b ha hb hab
  have ha2 := greedySelect_subset _ _ _ ha
  have := hse a ha2
  exact ⟨hab, by omega⟩

theorem rawMatches_of_occurrence (rows : List Row) (text U : List Char) (r : Nat)
    (ent : TermEntry) (hent : ent ∈ buildTable rows) (hkey : ent.key = lowerStr U)
    (htext : ∀ c ∈ text, (pyLowerChar c).length = 1)
    (hsl : ent.surface.length = ent.key.length)
    (hUocc : (text.drop r).take U.length = U)
    (hUlen : r + U.length ≤ text.length) :
    (⟨r, r + U.length - 1, ent.cid, U⟩ : RawMatch) ∈
      rawMatches (buildTable rows) text := by
  have hUchars : ∀ c ∈ U, (pyLowerChar c).length = 1 := by
    intro c hc
    rw [← hUocc] at hc
    exact htext c (List.mem_of_mem_drop (List.mem_of_mem_take hc))
  have klen : ent.key.length = U.length := by
    rw [hkey, lowerStr_length_eq U hUchars]
  have kpos : 2 ≤ U.length := by
    have := buildTable_surface_len rows ent hent
    omega
  have hLlen : (lowerStr text).length = text.length := lowerStr_length_eq text htext
  have hocc2 : ((lowerStr text).drop r).take U.length = lowerStr U := by
    rw [← lowerStr_slice text htext r U.length, hUocc]
  apply (mem_rawMatches _ _ _).mpr
  refine ⟨ent, hent, r + U.length - 1, by omega, by omega, ?_, ?_⟩
  · have h1 : r + U.length - 1 + 1 - ent.key.length = r := by omega
    rw [h1, klen, hocc2, hkey]
  · have h1 : r + U.length - 1 + 1 - ent.surface.length = r := by omega
    have h2 : r + U.length - 1 + 1 - r = U.length := by omega
    rw [h1, h2, hUocc]

/-- Dataset fixture: "Amyloid Beta" and "Beta" both indexed. -/
def rowsAmyloid : List Row :=
  [⟨some 1, some "Amyloid Beta".data, none, some "Protein".data⟩,
   ⟨some 2, some "Beta".data, none, none⟩]

/-- Dataset fixture: the single term "ACE". -/
def rowsACE : List Row := [⟨some 1, some "ACE".data, none, some "Enzyme".data⟩]

/-- Dataset fixture: the equal-length overlapping terms "a-b" and "b-c". -/
def rowsOverlap : List Row :=
  [⟨some 1, some "a-b".data, none, none⟩, ⟨some 2, some "b-c".data, none, none⟩]

/-- Dataset fixture: the single term "-ab", scanned against a text whose
case folding changes its length. -/
def rowsDash : List Row := [⟨some 1, some "-ab".data, none, none⟩]

/-- Dataset fixture rows sharing the id 1 with different names. -/
def rowDupA : Row := ⟨some 1, some "Alpha".data, some "synA".data, some "T1".data⟩

def rowDupB : Row := ⟨some 1, some "Beta2".data, some "synB".data, some "T2".data⟩

def rowsDup : List Row := [rowDupA, rowDupB]

/-- Dataset fixture: a non-empty row whose every candidate term is
invalid ("as" and "a" are stop words, "x" is too short). -/
def rowsAllInvalid : List Row := [⟨some 1, some "as".data, some "a, x".data, none⟩]

/-- Dataset fixture: a valid name with a stop-word synonym. -/
def rowsStopSyn : List Row := [⟨some 1, some "XYZ".data, some "as".data, none⟩]

/-- Dataset fixture: the single term "A1C". -/
def rowsA1C : List Row := [⟨some 1, some "A1C".data, none, none⟩]

/-- Claim C1: for every dataset-built term table and text, the spans selected by
`find_matches` (sort by start ascending then length descending, accept
when `start > last_end`) are pairwise non-overlapping with strictly
increasing starts; with "amyloid beta" and "beta" both indexed, scanning
"Amyloid Beta 42" yields exactly the one span `[0,11]` covering
"Amyloid Beta". -/
theorem find_matches_greedy_nonoverlapping :
    (∀ (rows : List Row) (text : List Char),
      (selectedSpans (buildTable rows) text).Pairwise
        (fun a b => a.endIdx < b.start ∧ a.start < b.start)) ∧
    selectedSpans (buildTable rowsAmyloid) "Amyloid Beta 42".data =
      [⟨0, 11, 1, "Amyloid Beta".data⟩] ∧
    findMatches rowsAmyloid 2 "Amyloid Beta 42".data =
      [⟨"Amyloid Beta".data, some "Amyloid Beta".data, 1, some "Protein".data⟩] :=
  ⟨selectedSpans_pairwise, by decide, by decide⟩

/-- Claim C2 counterexample: with "-ab" indexed, scanning "İ-ab" (whose
lowercase "i̇-ab" is one character longer) yields the raw match `[2,4]`;
the character before offset 2 is '-' and the character after offset 4 is
absent, so the claim's boundary condition holds, yet the filter's read of
`text[end + 1]` is the out-of-range `text[5]` on a 4-character text: the
scan raises IndexError (modelled by `none`) instead of keeping the
match, so the claimed iff fails on this text. -/
theorem whole_word_filter_raises_out_of_range :
    buildTable rowsDash = [⟨"-ab".data, 1, "-ab".data⟩] ∧
    rawMatches (buildTable rowsDash) "İ-ab".data = [⟨2, 4, 1, "ab".data⟩] ∧
    wordBoundary "İ-ab".data 2 4 ∧
    checkBound "İ-ab".data ⟨2, 4, 1, "ab".data⟩ = none ∧
    filterBound "İ-ab".data (rawMatches (buildTable rowsDash) "İ-ab".data) =
      none := by decide

/-- Claim C2 (amended): whenever lowercasing preserves the text's length
(always on ASCII) no boundary read is out of range: the whole-word stage
raises nothing and computes exactly the filter of the raw matches, and a
raw match survives it iff the character immediately before its start is
absent or not alphanumeric and the character immediately after its end
is absent or not alphanumeric; a non-raising boundary check succeeds
precisely on that condition on every text.  When case folding lengthens
the text a match can run past it and the filter raises IndexError
instead (see the counterexample).  The indexed term "ACE" matches in
"ACE inhibitor" and at both text boundaries but never inside "FACE",
"SPACE", or "ACELERATE". -/
theorem whole_word_filter_iff_in_range :
    (∀ (rows : List Row) (text : List Char),
      (∀ c ∈ text, (pyLowerChar c).length = 1) →
      filterBound text (rawMatches (buildTable rows) text) =
        some (survivors (buildTable rows) text)) ∧
    (∀ (text : List Char) (m : RawMatch) (b : Bool),
      checkBound text m = some b →
      (b = true ↔ wordBoundary text m.start m.endIdx)) ∧
    (∀ (rows : List Row) (text : List Char) (m : RawMatch),
      (∀ c ∈ text, (pyLowerChar c).length = 1) →
      (m ∈ survivors (buildTable rows) text ↔
        m ∈ rawMatches (buildTable rows) text ∧
          wordBoundary text m.start m.endIdx)) ∧
    findMatches rowsACE 2 "FACE".data = [] ∧
    findMatches rowsACE 2 "SPACE".data = [] ∧
    findMatches rowsACE 2 "ACELERATE".data = [] ∧
    findMatches rowsACE 2 "ACE inhibitor".data =
      [⟨"ACE".data, some "ACE".data, 1, some "Enzyme".data⟩] ∧
    findMatches rowsACE 2 "ACE".data =
      [⟨"ACE".data, some "ACE".data, 1, some "Enzyme".data⟩] ∧
    findMatches rowsACE 2 "enzyme ACE".data =
      [⟨"ACE".data, some "ACE".data, 1, some "Enzyme".data⟩] :=
  ⟨fun rows text htext =>
      filterBound_eq_filter text _
        (fun m hm => checkBound_some_of_len_eq rows text htext m hm),
    fun text m b hb => checkBound_some_iff text m b hb,
    fun rows text m _ =>
      (mem_survivors (buildTable rows) text m).trans
        (and_congr_right fun _ => boundaryOK_iff text m),
    by decide, by decide, by decide, by decide, by decide, by decide⟩

theorem whole_word_filter_iff_in_range_witness :
    filterBound "FACE".data (rawMatches (buildTable rowsACE) "FACE".data) =
      some (survivors (buildTable rowsACE) "FACE".data) ∧
    ((true : Bool) = true ↔ wordBoundary "ACE inhibitor".data 0 2) ∧
    ((⟨0, 2, 1, "ACE".data⟩ : RawMatch) ∈
        survivors (buildTable rowsACE) "ACE inhibitor".data ↔
      (⟨0, 2, 1, "ACE".data⟩ : RawMatch) ∈
          rawMatches (buildTable rowsACE) "ACE inhibitor".data ∧
        wordBoundary "ACE inhibitor".data 0 2) :=
  ⟨whole_word_filter_iff_in_range.1 rowsACE "FACE".data (by decide),
    whole_word_filter_iff_in_range.2.1 "ACE inhibitor".data
      ⟨0, 2, 1, "ACE".data⟩ true (by decide),
    whole_word_filter_iff_in_range.2.2.1 rowsACE "ACE inhibitor".data
      ⟨0, 2, 1, "ACE".data⟩ (by decide)⟩

/-- The validity predicate exactly as the spec words it: minimum length
`min_len` on the trimmed term, stop-word check on the lowercased trimmed
term. -/
def specIsValidTerm (min_len : Nat) (stop : List (List Char))
    (term : List Char) : Bool :=
  decide (min_len ≤ (pyStrip term).length) &&
    !(stop.contains (lowerStr (pyStrip term)))

/-- Claim C4 counterexample: with configured `min_len = 3` the term "ab" is
accepted by `_is_valid_term` although the spec predicate rejects it: the
code compares against the constant 2, not `min_len`. -/
theorem is_valid_term_min_len_ignored :
    isValidTerm "ab".data = true ∧
    specIsValidTerm 3 stopWords "ab".data = false := by decide

/-- Claim C4 (amended): on already-trimmed terms, `_is_valid_term` agrees with
the spec predicate instantiated at the constant `min_len = 2`; the
configured `min_len` is never consulted, and the length/stop-word checks
apply to the argument as passed (callers pre-strip it). -/
theorem is_valid_term_constant_two (term : List Char)
    (h : pyStrip term = term) :
    isValidTerm term = specIsValidTerm 2 stopWords term := by
  unfold isValidTerm specIsValidTerm
  rw [h]

theorem is_valid_term_constant_two_witness :
    pyStrip "ace".data = "ace".data ∧
    isValidTerm "ace".data = specIsValidTerm 2 stopWords "ace".data :=
  ⟨by decide, is_valid_term_constant_two "ace".data (by decide)⟩

/-- Claim C6: when zero valid terms remain after filtering (the term table is
empty), the build succeeds and `find_matches` returns the empty list for
every input text and every `min_len`. -/
theorem empty_dictionary_scan_empty (rows : List Row) (min_len : Nat)
    (text : List Char) (h : buildTable rows = []) :
    findMatches rows min_len text = [] :=
  findMatches_of_empty_table rows min_len text h

theorem empty_dictionary_scan_empty_witness :
    rowsAllInvalid ≠ [] ∧ buildTable rowsAllInvalid = [] ∧
    findMatches rowsAllInvalid 2 "as a x".data = [] :=
  ⟨by decide, by decide,
    empty_dictionary_scan_empty rowsAllInvalid 2 "as a x".data (by decide)⟩

/-- Claim C8: no term whose lowercase form is a stop word is ever inserted into
the term table; concretely, the stop-word synonym "as" of "XYZ" is not
indexed and the verbatim text "it was as before" yields no mention. -/
theorem stop_word_never_indexed :
    (∀ (rows : List Row) (ent : TermEntry), ent ∈ buildTable rows →
      stopWords.contains ent.key = false) ∧
    buildTable rowsStopSyn = [⟨"xyz".data, 1, "XYZ".data⟩] ∧
    findMatches rowsStopSyn 2 "it was as before".data = [] := by
  refine ⟨?_, by decide, by decide⟩
  intro rows ent hent
  have h := mem_buildTable_entOK rows ent hent
  rw [h.1]
  exact isValidTerm_not_stop _ h.2

theorem stop_word_never_indexed_witness :
    stopWords.contains (TermEntry.mk "xyz".data 1 "XYZ".data).key = false :=
  stop_word_never_indexed.1 rowsStopSyn ⟨"xyz".data, 1, "XYZ".data⟩ (by decide)

/-- Claim C9: the result-building stage of `find_matches` (source lines 123-131)
keeps every resolved span: when a span's concept id is absent from the
concept database, the emitted record carries the mention with empty
linked-name and type fields, and no span is dropped. -/
theorem missing_concept_empty_fields (rows : List Row) (ms : List RawMatch)
    (i : Nat) (m : RawMatch) (hm : ms[i]? = some m)
    (habs : dbGet rows m.cid = none) :
    (ms.map (resolveOne rows)).length = ms.length ∧
    (ms.map (resolveOne rows))[i]? = some ⟨m.mention, none, m.cid, none⟩ := by
  refine ⟨by simp, ?_⟩
  rw [List.getElem?_map, hm]
  show some (resolveOne rows m) = some (⟨m.mention, none, m.cid, none⟩ : MentionResult)
  rw [resolveOne_of_dbGet_none rows m habs]

theorem missing_concept_empty_fields_witness :
    (([⟨0, 1, 7, "ab".data⟩] : List RawMatch).map (resolveOne [])).length = 1 ∧
    (([⟨0, 1, 7, "ab".data⟩] : List RawMatch).map (resolveOne []))[0]? =
      some ⟨"ab".data, none, 7, none⟩ :=
  missing_concept_empty_fields [] [⟨0, 1, 7, "ab".data⟩] 0 ⟨0, 1, 7, "ab".data⟩
    (by decide) (by decide)

/-- Claim C10: the `min_len` constructor argument is passed to the automaton
build but never consulted (`_is_valid_term` hard-codes 2), so a finder
built with any `min_len` returns exactly the same mentions as one built
with the default 2, on every dataset and text. -/
theorem min_len_argument_ignored (rows : List Row) (min_len : Nat)
    (text : List Char) :
    findMatches rows min_len text = findMatches rows 2 text := rfl

/-- Claim C3 counterexample: "b-c" is indexed and occurs at whole-word
boundaries at offsets `[2,4]` of "a-b-c", and no accepted span is longer
than 3 characters, yet `find_matches` reports only "a-b": the occurrence
is blocked by an overlapping accepted span of merely equal length, so the
claim's "not overlapped by a longer accepted match" proviso is too weak. -/
theorem occurrence_blocked_equal_length :
    buildTable rowsOverlap =
      [⟨"a-b".data, 1, "a-b".data⟩, ⟨"b-c".data, 2, "b-c".data⟩] ∧
    ("a-b-c".data.drop 2).take 3 = "b-c".data ∧
    wordBoundary "a-b-c".data 2 4 ∧
    selectedSpans (buildTable rowsOverlap) "a-b-c".data =
      [⟨0, 2, 1, "a-b".data⟩] ∧
    ((selectedSpans (buildTable rowsOverlap) "a-b-c".data).all
      (fun m => decide (m.endIdx + 1 - m.start ≤ 3))) = true ∧
    findMatches rowsOverlap 2 "a-b-c".data =
      [⟨"a-b".data, some "a-b".data, 1, none⟩] ∧
    ((findMatches rowsOverlap 2 "a-b-c".data).all
      (fun res => !(res.mentionedTerm == "b-c".data))) = true := by decide

/-- Claim C3 (amended): under the spec's case-folding contract (lowercasing
preserves length for the text and the indexed surface forms), every
whole-word occurrence of a case-variant `U` of an indexed term that is
not overlapped by any other accepted span is itself accepted, and
`find_matches` emits a mention equal to the text's own substring `U` at
those offsets. -/
theorem case_variant_occurrence_reported (rows : List Row)
    (text U : List Char) (r : Nat) (ent : TermEntry)
    (hent : ent ∈ buildTable rows) (hkey : ent.key = lowerStr U)
    (htext : ∀ c ∈ text, (pyLowerChar c).length = 1)
    (hsl : ∀ x ∈ buildTable rows, x.surface.length = x.key.length)
    (hUocc : (text.drop r).take U.length = U)
    (hUlen : r + U.length ≤ text.length)
    (hwb : wordBoundary text r (r + U.length - 1))
    (hno : ∀ m ∈ selectedSpans (buildTable rows) text,
      m.start ≤ r + U.length - 1 → r ≤ m.endIdx →
      m = ⟨r, r + U.length - 1, ent.cid, U⟩) :
    (⟨r, r + U.length - 1, ent.cid, U⟩ : RawMatch) ∈
        selectedSpans (buildTable rows) text ∧
      ∃ res ∈ findMatches rows 2 text, res.mentionedTerm = U := by
  have hslent := hsl ent hent
  have hUchars : ∀ c ∈ U, (pyLowerChar c).length = 1 := by
    intro c hc
    rw [← hUocc] at hc
    exact htext c (List.mem_of_mem_drop (List.mem_of_mem_take hc))
  have klen : ent.key.length = U.length := by
    rw [hkey, lowerStr_length_eq U hUchars]
  have kpos : 2 ≤ U.length := by
    have := buildTable_surface_len rows ent hent
    omega
  have hraw := rawMatches_of_occurrence rows text U r ent hent hkey htext
    hslent hUocc hUlen
  have hbok : boundaryOK text (⟨r, r + U.length - 1, ent.cid, U⟩ : RawMatch) = true := by
    rw [boundaryOK_iff]
    exact hwb
  have hsurv : (⟨r, r + U.length - 1, ent.cid, U⟩ : RawMatch) ∈
      survivors (buildTable rows) text :=
    (mem_survivors _ _ _).mpr ⟨hraw, hbok⟩
  have hsortmem : (⟨r, r + U.length - 1, ent.cid, U⟩ : RawMatch) ∈
      sortMatches (survivors (buildTable rows) text) :=
    (mem_sortMatches _ _).mpr hsurv
  have hpair : (sortMatches (survivors (buildTable rows) text)).Pairwise
      (fun a b => a.start ≤ b.start) :=
    (sortMatches_pairwise _).imp (fun h => matchLE_start_le _ _ h)
  have hmem : (⟨r, r + U.length - 1, ent.cid, U⟩ : RawMatch) ∈
      selectedSpans (buildTable rows) text := by
    by_contra hnot
    obtain ⟨w, hw, hws, hwe⟩ :=
      greedySelect_complete _ (-1) _ hpair hsortmem (by omega) hnot
    have hws' : w.start ≤ r := hws
    have hwe' : r ≤ w.endIdx := hwe
    have heq := hno w hw (by omega) hwe'
    rw [heq] at hw
    exact hnot hw
  refine ⟨hmem, ?_⟩
  have h1 : buildTable rows ≠ [] := List.ne_nil_of_mem hent
  have h2 : survivors (buildTable rows) text ≠ [] := List.ne_nil_of_mem hsurv
  rw [findMatches_eq rows 2 text h1 h2]
  exact ⟨resolveOne rows ⟨r, r + U.length - 1, ent.cid, U⟩,
    List.mem_map_of_mem _ hmem, resolveOne_mention _ _⟩

theorem case_variant_occurrence_reported_witness :
    (⟨5, 7, 1, "A1C".data⟩ : RawMatch) ∈
        selectedSpans (buildTable rowsA1C) "high A1C now".data ∧
      ∃ res ∈ findMatches rowsA1C 2 "high A1C now".data,
        res.mentionedTerm = "A1C".data := by
  have h := case_variant_occurrence_reported rowsA1C "high A1C now".data
    "A1C".data 5 ⟨"a1c".data, 1, "A1C".data⟩ (by decide) (by decide)
    (by decide) (by decide) (by decide) (by decide)
    ⟨by decide, by decide⟩ (by decide)
  exact h

/-- Claim C5: with two valid rows carrying the same id, the concept database
maps that id to the first such row, while term extraction still visits
the later duplicate row, so any of its valid terms whose lowercase form
is not yet taken gets indexed under the duplicated id. -/
theorem duplicate_id_first_row_wins (pre mid post : List Row) (r1 r2 : Row)
    (cid : Nat) (h1i : r1.id = some cid) (h1n : r1.name.isSome = true)
    (h2i : r2.id = some cid) (h2n : r2.name.isSome = true)
    (hpre : ∀ r ∈ pre, r.id ≠ some cid ∨ r.name = none) :
    dbGet (pre ++ r1 :: (mid ++ r2 :: post)) cid = some r1 ∧
    ∀ t ∈ rowTerms r2, isValidTerm (pyStrip t) = true →
      (∀ ent ∈ buildTable (pre ++ r1 :: mid), ent.key ≠ lowerStr (pyStrip t)) →
      ∃ ent ∈ buildTable (pre ++ r1 :: (mid ++ r2 :: post)),
        ent.key = lowerStr (pyStrip t) ∧ ent.cid = r2.id.getD 0 := by
  constructor
  · rw [dbGet_eq_find_valid, validRows_append]
    have hr1 : validRows (r1 :: (mid ++ r2 :: post)) =
        r1 :: validRows (mid ++ r2 :: post) := by
      unfold validRows
      exact List.filter_cons_of_pos (by rw [h1i, h1n]; simp)
    rw [hr1]
    rw [find?_append_of_none _ _ _ ?hnone]
    case hnone =>
      intro x hx
      have hx2 := mem_validRows pre x hx
      rcases hpre x hx2.1 with hni | hnn
      · cases hb : (x.id == some cid)
        · rfl
        · exact absurd (beq_iff_eq.mp hb) hni
      · rw [hnn] at hx2
        exact absurd hx2.2.2 (by simp)
    exact @List.find?_cons_of_pos Row (fun r => r.id == some cid) r1
      (validRows (mid ++ r2 :: post)) (beq_iff_eq.mpr h1i)
  · intro t ht hv habs
    have hsplit : pre ++ r1 :: (mid ++ r2 :: post) =
        (pre ++ r1 :: mid) ++ (r2 :: post) := by simp
    have hr2 : validRows (r2 :: post) = r2 :: validRows post := by
      unfold validRows
      exact List.filter_cons_of_pos (by rw [h2i, h2n]; simp)
    rw [hsplit, buildTable_append, hr2, List.foldl_cons]
    obtain ⟨ent, hent, hk, hc⟩ := addTerms_key_covers (r2.id.getD 0)
      (rowTerms r2) (buildTable (pre ++ r1 :: mid)) t ht hv habs
    exact ⟨ent, foldl_addRow_mono _ _ _ hent, hk, hc⟩

theorem duplicate_id_first_row_wins_witness :
    dbGet rowsDup 1 = some rowDupA ∧
    ∃ ent ∈ buildTable rowsDup,
      ent.key = lowerStr (pyStrip "Beta2".data) ∧ ent.cid = rowDupB.id.getD 0 := by
  have h := duplicate_id_first_row_wins [] [] [] rowDupA rowDupB 1
    (by decide) (by decide) (by decide) (by decide) (by simp)
  exact ⟨h.1, h.2 "Beta2".data (by decide) (by decide) (by decide)⟩

/-- Claim C7 counterexample: the text "İ-ab-" lowers to the longer "i̇-ab-";
scanning it with "-ab" indexed silently returns the span `[2,4]` whose
slice "ab-" is not an occurrence of the matched term in any casing (the
real occurrence sits at `[1,3]`), with no offset remapping and no error. -/
theorem lowercase_shift_silent_misreport :
    buildTable rowsDash = [⟨"-ab".data, 1, "-ab".data⟩] ∧
    (lowerStr "İ-ab-".data).length ≠ "İ-ab-".data.length ∧
    selectedSpans (buildTable rowsDash) "İ-ab-".data =
      [⟨2, 4, 1, "ab-".data⟩] ∧
    findMatches rowsDash 2 "İ-ab-".data =
      [⟨"ab-".data, some "-ab".data, 1, none⟩] ∧
    lowerStr (("İ-ab-".data.drop 2).take 3) ≠ lowerStr "-ab".data ∧
    ("İ-ab-".data.drop 1).take 3 = "-ab".data := by decide

/-- Claim C7 (amended): when lowercasing preserves length for the scanned text
and for every indexed surface form, each span selected by `find_matches`
lies inside the text and its offsets delimit an actual occurrence of the
matched term up to case: the slice of the original text at the span
equals the reported mention and lowers to the matched term's key.  When
lowercasing changes length the code neither remaps nor fails (see the
counterexample). -/
theorem length_preserving_spans_delimit (rows : List Row) (text : List Char)
    (htext : ∀ c ∈ text, (pyLowerChar c).length = 1)
    (hsl : ∀ x ∈ buildTable rows, x.surface.length = x.key.length)
    (m : RawMatch) (hm : m ∈ selectedSpans (buildTable rows) text) :
    m.endIdx < text.length ∧ m.start ≤ m.endIdx ∧
    m.mention = (text.drop m.start).take (m.endIdx + 1 - m.start) ∧
    ∃ ent ∈ buildTable rows, ent.cid = m.cid ∧
      lowerStr ((text.drop m.start).take (m.endIdx + 1 - m.start)) = ent.key := by
  have hraw : m ∈ rawMatches (buildTable rows) text :=
    ((mem_survivors _ _ _).mp
      ((mem_sortMatches _ _).mp (greedySelect_subset _ _ _ hm))).1
  rcases (mem_rawMatches _ _ _).mp hraw with ⟨ent, hent, e, he, h1, h2, rfl⟩
  have hslent := hsl ent hent
  have hsl2 := buildTable_surface_len rows ent hent
  have hLlen := lowerStr_length_eq text htext
  refine ⟨by show e < text.length; omega,
    by show e + 1 - ent.surface.length ≤ e; omega, rfl, ent, hent, rfl, ?_⟩
  have hstart : e + 1 - ent.surface.length = e + 1 - ent.key.length := by omega
  have htake : e + 1 - (e + 1 - ent.surface.length) = ent.key.length := by omega
  rw [lowerStr_slice text htext, htake, hstart]
  exact h2

theorem length_preserving_spans_delimit_witness :
    (⟨5, 7, 1, "A1C".data⟩ : RawMatch).endIdx < "high A1C now".data.length ∧
    (⟨5, 7, 1, "A1C".data⟩ : RawMatch).start ≤
      (⟨5, 7, 1, "A1C".data⟩ : RawMatch).endIdx ∧
    (⟨5, 7, 1, "A1C".data⟩ : RawMatch).mention =
      ("high A1C now".data.drop 5).take (7 + 1 - 5) ∧
    ∃ ent ∈ buildTable rowsA1C, ent.cid = 1 ∧
      lowerStr (("high A1C now".data.drop 5).take (7 + 1 - 5)) = ent.key := by
  have h := length_preserving_spans_delimit rowsA1C "high A1C now".data
    (by decide) (by decide) ⟨5, 7, 1, "A1C".data⟩ (by decide)
  exact h
